import Mathlib

/-!
# Verification of the OpenCowork task-execution engine

A shallow embedding of the core of the OpenCowork repository:

* the permission / policy engine (`src/opencowork/sandbox/permissions.py`),
* the plan executor state machine (`src/opencowork/agent/executor.py`),
* the Docker sandbox runner (`src/opencowork/sandbox/docker_runner.py`),
* the filesystem tools (`src/opencowork/tools/filesystem.py`).

Paths are modelled as lists of components of a resolved absolute path
(`Path(...).resolve()` output); Python dicts keyed by strings or ints are
modelled as association lists with first-key-wins lookup and
replace-or-append insertion; exceptions are modelled as explicit outcome
constructors carrying the message and the exception class name.
-/

namespace OpenCowork

/-! ## Permission engine (`sandbox/permissions.py`) -/

/-- `AccessLevel` from `permissions.py`: `NONE = "none"`, `READ = "read"`,
`WRITE = "read_write"`. -/
inductive AccessLevel where
  | none
  | read
  | write
deriving DecidableEq, Repr

/-- `FolderPolicy` dataclass from `permissions.py`.  The `path` is the list of
components of the resolved absolute folder path. -/
structure FolderPolicy where
  path : List String
  access : AccessLevel := .read
  allow_delete : Bool := false
  require_confirmation : Bool := false
deriving DecidableEq, Repr

/-- Length of `str(Path(...))` for a resolved absolute path given by its
components: `"/"` for the root, otherwise `"/" ++ c` for each component. -/
def pathStrLen (comps : List String) : Nat :=
  match comps with
  | [] => 1
  | _ => comps.foldl (fun acc c => acc + 1 + c.length) 0

/-- The `for policy_path, policy in self.policy.folders.items()` loop of
`PermissionManager._get_folder_policy`, carrying the running `best_match`:
a rule is a candidate when its resolved path is a prefix of the resolved
target path (the `Path(file_path).relative_to(policy_path_resolved)` check),
and it replaces the current best only when its resolved path string is
strictly longer. -/
def folderPolicyLoop (p : List String) :
    List FolderPolicy → Option FolderPolicy → Option FolderPolicy
  | [], best => best
  | f :: rest, best =>
    if f.path.isPrefixOf p then
      match best with
      | Option.none => folderPolicyLoop p rest (some f)
      | some b =>
        if pathStrLen f.path > pathStrLen b.path then
          folderPolicyLoop p rest (some f)
        else folderPolicyLoop p rest (some b)
    else folderPolicyLoop p rest best

/-- `PermissionManager._get_folder_policy`: longest-prefix match over the
folder rules, `None` when no rule matches. -/
def getFolderPolicy (folders : List FolderPolicy) (p : List String) :
    Option FolderPolicy :=
  folderPolicyLoop p folders Option.none

/-- `PermissionManager` state: the folder rules (the `PermissionPolicy.folders`
dict in insertion order) and the optional confirmation callback. -/
structure PermissionManager where
  folders : List FolderPolicy
  confirmHandler : Option (String → Bool) := Option.none

/-- `PermissionManager._get_access_level`. -/
def getAccessLevel (m : PermissionManager) (p : List String) : AccessLevel :=
  match getFolderPolicy m.folders p with
  | some policy => policy.access
  | Option.none => .none

/-- `PermissionManager.can_read_file`. -/
def canReadFile (m : PermissionManager) (p : List String) : Bool :=
  let access := getAccessLevel m p
  access = AccessLevel.read ∨ access = AccessLevel.write

/-- `PermissionManager.can_write_file`. -/
def canWriteFile (m : PermissionManager) (p : List String) : Bool :=
  getAccessLevel m p = AccessLevel.write

/-- `PermissionManager.can_delete_file`. -/
def canDeleteFile (m : PermissionManager) (p : List String) : Bool :=
  match getFolderPolicy m.folders p with
  | Option.none => false
  | some policy => policy.access = AccessLevel.write ∧ policy.allow_delete

/-- `PermissionManager.request_confirmation`: returns `False` when no
confirmation handler is configured, otherwise the handler's answer. -/
def requestConfirmation (m : PermissionManager) (message : String) : Bool :=
  match m.confirmHandler with
  | Option.none => false
  | some h => h message

/-! ### Lemmas about folder-rule resolution -/

/-- Any rule returned by the `best_match` loop was among the rules scanned or
was the incoming candidate. -/
theorem folderPolicyLoop_mem (p : List String) (folders : List FolderPolicy)
    (best : Option FolderPolicy) (r : FolderPolicy)
    (h : folderPolicyLoop p folders best = some r) :
    r ∈ folders ∨ best = some r := by
  induction folders generalizing best with
  | nil => simp [folderPolicyLoop] at h; simp [h]
  | cons f rest ih =>
    simp only [folderPolicyLoop] at h
    by_cases hpre : f.path.isPrefixOf p
    · simp only [hpre, if_true] at h
      cases best with
      | none =>
        rcases ih _ h with h' | h'
        · exact Or.inl (List.mem_cons_of_mem _ h')
        · simp at h'; simp [h']
      | some b =>
        by_cases hlen : pathStrLen f.path > pathStrLen b.path
        · simp only [hlen, if_true] at h
          rcases ih _ h with h' | h'
          · exact Or.inl (List.mem_cons_of_mem _ h')
          · simp at h'; simp [h']
        · simp only [hlen, if_false] at h
          rcases ih _ h with h' | h'
          · exact Or.inl (List.mem_cons_of_mem _ h')
          · exact Or.inr h'
    · simp only [hpre, if_false] at h
      rcases ih _ h with h' | h'
      · exact Or.inl (List.mem_cons_of_mem _ h')
      · exact Or.inr h'

/-- The rule returned by the `best_match` loop matches the target path and its
resolved path is at least as long as that of any matching rule scanned, and at
least as long as the incoming candidate's. -/
theorem folderPolicyLoop_spec (p : List String) (folders : List FolderPolicy)
    (best : Option FolderPolicy) (r : FolderPolicy)
    (hbest : ∀ b, best = some b → b.path.isPrefixOf p = true)
    (h : folderPolicyLoop p folders best = some r) :
    r.path.isPrefixOf p = true ∧
      (∀ f ∈ folders, f.path.isPrefixOf p = true →
        pathStrLen f.path ≤ pathStrLen r.path) ∧
      (∀ b, best = some b → pathStrLen b.path ≤ pathStrLen r.path) := by
  induction folders generalizing best with
  | nil =>
    simp [folderPolicyLoop] at h
    refine ⟨hbest r h, by simp, ?_⟩
    intro b hb; rw [h] at hb
    simp at hb; simp [hb]
  | cons f rest ih =>
    simp only [folderPolicyLoop] at h
    by_cases hpre : f.path.isPrefixOf p
    · simp only [hpre, if_true] at h
      cases best with
      | none =>
        have hb' : ∀ b, some f = some b → b.path.isPrefixOf p = true := by
          intro b hb; simp at hb; simp [← hb, hpre]
        obtain ⟨h1, h2, h3⟩ := ih (some f) hb' h
        refine ⟨h1, ?_, by simp⟩
        intro g hg hgp
        rcases List.mem_cons.mp hg with hg | hg
        · subst hg; exact h3 _ rfl
        · exact h2 g hg hgp
      | some b =>
        by_cases hlen : pathStrLen f.path > pathStrLen b.path
        · simp only [hlen, if_true] at h
          have hb' : ∀ c, some f = some c → c.path.isPrefixOf p = true := by
            intro c hc; simp at hc; simp [← hc, hpre]
          obtain ⟨h1, h2, h3⟩ := ih (some f) hb' h
          refine ⟨h1, ?_, ?_⟩
          · intro g hg hgp
            rcases List.mem_cons.mp hg with hg | hg
            · subst hg; exact h3 _ rfl
            · exact h2 g hg hgp
          · intro c hc
            simp at hc; subst hc
            exact le_trans (le_of_lt hlen) (h3 _ rfl)
        · simp only [hlen, if_false] at h
          obtain ⟨h1, h2, h3⟩ := ih (some b) hbest h
          refine ⟨h1, ?_, h3⟩
          intro g hg hgp
          rcases List.mem_cons.mp hg with hg | hg
          · subst hg
            exact le_trans (Nat.le_of_not_lt hlen) (h3 b rfl)
          · exact h2 g hg hgp
    · simp only [hpre, if_false] at h
      obtain ⟨h1, h2, h3⟩ := ih best hbest h
      refine ⟨h1, ?_, h3⟩
      intro g hg hgp
      rcases List.mem_cons.mp hg with hg | hg
      · subst hg; simp [hgp] at hpre
      · exact h2 g hg hgp

/-- Starting the `best_match` loop from a `some` candidate never yields
`None`. -/
theorem folderPolicyLoop_some_isSome (p : List String)
    (rest : List FolderPolicy) (c : FolderPolicy) :
    (folderPolicyLoop p rest (some c)).isSome := by
  induction rest generalizing c with
  | nil => simp [folderPolicyLoop]
  | cons f rs ih =>
    simp only [folderPolicyLoop]
    by_cases hpre : f.path.isPrefixOf p
    · simp only [hpre, if_true]
      by_cases hlen : pathStrLen f.path > pathStrLen c.path
      · simp only [hlen, if_true]; exact ih f
      · simp only [hlen, if_false]; exact ih c
    · simp only [hpre, if_false]; exact ih c

/-- If some rule matches the path, the `best_match` loop does not return
`None`. -/
theorem folderPolicyLoop_isSome (p : List String)
    (folders : List FolderPolicy) (best : Option FolderPolicy)
    (h : ∃ f ∈ folders, f.path.isPrefixOf p = true) :
    (folderPolicyLoop p folders best).isSome := by
  induction folders generalizing best with
  | nil => simp at h
  | cons f rest ih =>
    simp only [folderPolicyLoop]
    obtain ⟨g, hg, hgp⟩ := h
    rcases List.mem_cons.mp hg with hg | hg
    · subst hg
      simp only [hgp, if_true]
      cases best with
      | none => exact folderPolicyLoop_some_isSome p rest g
      | some b =>
        by_cases hlen : pathStrLen g.path > pathStrLen b.path
        · simp only [hlen, if_true]
          exact folderPolicyLoop_some_isSome p rest g
        · simp only [hlen, if_false]
          exact folderPolicyLoop_some_isSome p rest b
    · by_cases hpre : f.path.isPrefixOf p
      · simp only [hpre, if_true]
        cases best with
        | none => exact folderPolicyLoop_some_isSome p rest f
        | some b =>
          by_cases hlen : pathStrLen f.path > pathStrLen b.path
          · simp only [hlen, if_true]
            exact folderPolicyLoop_some_isSome p rest f
          · simp only [hlen, if_false]
            exact folderPolicyLoop_some_isSome p rest b
      · simp only [hpre, if_false]
        exact ih best ⟨g, hg, hgp⟩

/-! ### Claim theorems for the permission engine -/

/-- C5: for every path governed by a folder rule with access `read_write` and
`allow_delete = false`, `can_write_file` returns true and `can_delete_file`
returns false; delete requires both the `read_write` access level and the
`allow_delete` flag on the matching rule; and for a path matched by no folder
rule, `can_read_file`, `can_write_file` and `can_delete_file` all return
false. -/
theorem can_delete_requires_both_gates (m : PermissionManager)
    (p : List String) :
    (∀ r, getFolderPolicy m.folders p = some r →
        r.access = AccessLevel.write → r.allow_delete = false →
        canWriteFile m p = true ∧ canDeleteFile m p = false) ∧
    (getFolderPolicy m.folders p = Option.none →
        canReadFile m p = false ∧ canWriteFile m p = false ∧
        canDeleteFile m p = false) ∧
    (canDeleteFile m p = true ↔
        ∃ r, getFolderPolicy m.folders p = some r ∧
          r.access = AccessLevel.write ∧ r.allow_delete = true) := by
  refine ⟨?_, ?_, ?_⟩
  · intro r hr hacc hdel
    constructor
    · simp [canWriteFile, getAccessLevel, hr, hacc]
    · simp [canDeleteFile, hr, hdel]
  · intro hnone
    refine ⟨?_, ?_, ?_⟩
    · simp [canReadFile, getAccessLevel, hnone]
    · simp [canWriteFile, getAccessLevel, hnone]
    · simp [canDeleteFile, hnone]
  · constructor
    · intro h
      cases hr : getFolderPolicy m.folders p with
      | none => simp [canDeleteFile, hr] at h
      | some r =>
        refine ⟨r, rfl, ?_⟩
        simpa [canDeleteFile, hr] using h
    · rintro ⟨r, hr, hacc, hdel⟩
      simp [canDeleteFile, hr, hacc, hdel]

/-- Witness for C5 at concrete inputs: a rule for `/home` with `read_write`
access and `allow_delete = false` permits writing and denies deleting a file
under `/home`, and a path under `/etc`, matched by no rule, denies read, write
and delete. -/
theorem can_delete_requires_both_gates_witness :
    canWriteFile ⟨[⟨["home"], AccessLevel.write, false, false⟩], Option.none⟩
        ["home", "notes.txt"] = true ∧
    canDeleteFile ⟨[⟨["home"], AccessLevel.write, false, false⟩], Option.none⟩
        ["home", "notes.txt"] = false ∧
    canReadFile ⟨[⟨["home"], AccessLevel.write, false, false⟩], Option.none⟩
        ["etc", "passwd"] = false ∧
    canWriteFile ⟨[⟨["home"], AccessLevel.write, false, false⟩], Option.none⟩
        ["etc", "passwd"] = false ∧
    canDeleteFile ⟨[⟨["home"], AccessLevel.write, false, false⟩], Option.none⟩
        ["etc", "passwd"] = false := by
  have h1 := (can_delete_requires_both_gates
      ⟨[⟨["home"], AccessLevel.write, false, false⟩], Option.none⟩
      ["home", "notes.txt"]).1
      ⟨["home"], AccessLevel.write, false, false⟩ (by decide) rfl rfl
  have h2 := (can_delete_requires_both_gates
      ⟨[⟨["home"], AccessLevel.write, false, false⟩], Option.none⟩
      ["etc", "passwd"]).2.1 (by decide)
  exact ⟨h1.1, h1.2, h2.1, h2.2.1, h2.2.2⟩

/-- C6: folder access resolution selects, among all folder rules whose
resolved path is a prefix of the resolved target path, the rule with the
longest matching prefix (and returns a matching rule whenever one exists); in
particular, with rules for `/a` (read) and `/a/b` (read_write), a request for
`/a/b/c` resolves to `read_write`. -/
theorem folder_policy_longest_prefix :
    (∀ (folders : List FolderPolicy) (p : List String) (r : FolderPolicy),
        getFolderPolicy folders p = some r →
          r ∈ folders ∧ r.path.isPrefixOf p = true ∧
          ∀ f ∈ folders, f.path.isPrefixOf p = true →
            pathStrLen f.path ≤ pathStrLen r.path) ∧
    (∀ (folders : List FolderPolicy) (p : List String),
        (∃ f ∈ folders, f.path.isPrefixOf p = true) →
          (getFolderPolicy folders p).isSome) ∧
    getAccessLevel
      ⟨[⟨["a"], AccessLevel.read, false, false⟩,
        ⟨["a", "b"], AccessLevel.write, false, false⟩], Option.none⟩
      ["a", "b", "c"] = AccessLevel.write := by
  refine ⟨?_, ?_, by decide⟩
  · intro folders p r h
    have hmem := folderPolicyLoop_mem p folders Option.none r h
    have hspec := folderPolicyLoop_spec p folders Option.none r
      (by intro b hb; cases hb) h
    refine ⟨?_, hspec.1, hspec.2.1⟩
    rcases hmem with h' | h'
    · exact h'
    · cases h'
  · intro folders p h
    exact folderPolicyLoop_isSome p folders Option.none h

/-- Witness for C6 at concrete inputs: with rules for `/a` and `/a/b`, the
rule matched for `/a/b/c` is the `/a/b` rule, a member of the rule list whose
path is a prefix of the target and is the longest such. -/
theorem folder_policy_longest_prefix_witness :
    (⟨["a", "b"], AccessLevel.write, false, false⟩ : FolderPolicy) ∈
      [(⟨["a"], AccessLevel.read, false, false⟩ : FolderPolicy),
        ⟨["a", "b"], AccessLevel.write, false, false⟩] ∧
    pathStrLen ["a"] ≤ pathStrLen ["a", "b"] ∧
    (getFolderPolicy
      [⟨["a"], AccessLevel.read, false, false⟩,
        ⟨["a", "b"], AccessLevel.write, false, false⟩] ["a", "b", "c"]).isSome := by
  have h := folder_policy_longest_prefix.1
    [⟨["a"], AccessLevel.read, false, false⟩,
      ⟨["a", "b"], AccessLevel.write, false, false⟩] ["a", "b", "c"]
    ⟨["a", "b"], AccessLevel.write, false, false⟩ (by decide)
  have h2 := folder_policy_longest_prefix.2.1
    [⟨["a"], AccessLevel.read, false, false⟩,
      ⟨["a", "b"], AccessLevel.write, false, false⟩] ["a", "b", "c"]
    ⟨⟨["a"], AccessLevel.read, false, false⟩, by decide, by decide⟩
  exact ⟨h.1,
    h.2.2 ⟨["a"], AccessLevel.read, false, false⟩ (by simp) (by decide), h2⟩

/-- C7: if no confirmation callback is configured on the `PermissionManager`,
`request_confirmation` returns `false` for every message: a missing handler
never results in the action being treated as allowed. -/
theorem request_confirmation_fails_closed (m : PermissionManager)
    (message : String) (h : m.confirmHandler = Option.none) :
    requestConfirmation m message = false := by
  simp [requestConfirmation, h]

/-- Witness for C7 at a concrete input: a manager with no handler refuses a
concrete confirmation request. -/
theorem request_confirmation_fails_closed_witness :
    (⟨[], Option.none⟩ : PermissionManager).confirmHandler = Option.none ∧
    requestConfirmation ⟨[], Option.none⟩ "Delete /tmp/x?" = false :=
  ⟨rfl, request_confirmation_fails_closed ⟨[], Option.none⟩ "Delete /tmp/x?" rfl⟩

/-! ## Executor (`agent/executor.py`, data model in `core.py`)

Tool results are Python dicts opaque to the executor; they are modelled by a
type parameter `α`.  The behaviour of the registered tools (including
exceptions and `asyncio` timeouts) is modelled by an environment function
from action name and arguments to a `ToolOutcome`.
-/

/-- Python values appearing in step argument dicts. -/
inductive PyVal where
  | str (s : String)
  | int (n : Int)
  | bool (b : Bool)
deriving DecidableEq, Repr

/-- A Python dict with string keys, as an association list in insertion
order (keys unique). -/
abbrev Args := List (String × PyVal)

/-- Python `dict.get(key, default)`. -/
def dictGet (args : Args) (key : String) (dflt : PyVal) : PyVal :=
  match args.find? (fun kv => kv.1 = key) with
  | some kv => kv.2
  | Option.none => dflt

/-- `StepStatus` from `core.py`. -/
inductive StepStatus where
  | pending
  | running
  | success
  | failed
  | skipped
deriving DecidableEq, Repr

/-- `ExecutionStatus` from `core.py`. -/
inductive ExecutionStatus where
  | pending
  | running
  | success
  | failed
  | timeout
  | cancelled
  | permissionDenied
deriving DecidableEq, Repr

/-- A step observation: the dict returned by `Executor.execute_step` — either
one of the fixed dicts of the three reserved pseudo-actions or a registry
tool's result (opaque payload `α`). -/
inductive Obs (α : Type) where
  | confirm
  | askHuman
  | waited (v : PyVal)
  | tool (r : α)
deriving DecidableEq, Repr

/-- Outcome of awaiting a coroutine under `asyncio.wait_for`: a result, an
`asyncio.TimeoutError`, or another exception carrying its message and its
class name (`type(e).__name__`). -/
inductive ToolOutcome (β : Type) where
  | ok (r : β)
  | timeout
  | exc (msg ty : String)
deriving DecidableEq, Repr

/-- `Step` from `core.py` (the fields the executor reads or writes). -/
structure Step (α : Type) where
  step : Nat
  action : String
  description : String := ""
  arguments : Args := []
  status : StepStatus := .pending
  error : Option String := Option.none
  result : Option (Obs α) := Option.none
deriving DecidableEq

/-- `Plan` from `core.py` (the fields the executor reads). -/
structure Plan (α : Type) where
  goal : String
  steps : List (Step α)
deriving DecidableEq

/-- An error record dict appended to `ExecutionContext.errors`: the loop in
`Executor.execute` appends `{"step": ..., "error": ...}` (no action, no error
kind) and `Executor.handle_error` appends
`{"step": ..., "action": ..., "error": ..., "error_type": ...}`. -/
structure ErrorRecord where
  step : Nat
  action : Option String
  error : String
  errorType : Option String
deriving DecidableEq, Repr

/-- `ExecutionContext` from `core.py` (the fields the executor touches):
the observation dict keyed by step number and the error record list. -/
structure Ctx (α : Type) where
  goal : String := ""
  observations : List (Nat × Obs α) := []
  errors : List ErrorRecord := []
deriving DecidableEq

/-- Python dict assignment `d[k] = v`: replace the value at an existing key,
else append the new entry. -/
def dictInsert {α : Type} (k : Nat) (v : α) :
    List (Nat × α) → List (Nat × α)
  | [] => [(k, v)]
  | (k', v') :: rest =>
    if k' = k then (k, v) :: rest else (k', v') :: dictInsert k v rest

/-- `Executor.execute_step`: the three reserved pseudo-actions bypass the
registry; a name absent from the registry raises `ValueError` ("Unknown
tool"); otherwise the registered tool runs under `asyncio.wait_for`, whose
outcome the environment supplies. -/
def executeStep {α : Type} (tools : List String)
    (env : String → Args → ToolOutcome α) (st : Step α) :
    ToolOutcome (Obs α) :=
  if st.action = "confirm_action" then .ok .confirm
  else if st.action = "ask_human" then .ok .askHuman
  else if st.action = "wait" then
    .ok (.waited (dictGet st.arguments "seconds" (.int 1)))
  else if tools.contains st.action then
    match env st.action st.arguments with
    | .ok r => .ok (.tool r)
    | .timeout => .timeout
    | .exc msg ty => .exc msg ty
  else .exc ("Unknown tool: " ++ st.action) "ValueError"

/-- The continue-or-stop decision of `Executor.handle_error`:
`isinstance(error, (ValueError, KeyError))` returns `False`, and the fallback
branch also returns `False`. -/
def handleErrorDecision (ty : String) : Bool :=
  if ty = "ValueError" ∨ ty = "KeyError" then false else false

/-- `Executor.handle_error`: append the full error record (step, action,
message, error type) to the context, then return the continue-or-stop
decision. -/
def handleError {α : Type} (ctx : Ctx α) (st : Step α) (msg ty : String) :
    Bool × Ctx α :=
  (handleErrorDecision ty,
    { ctx with errors := ctx.errors ++ [⟨st.step, some st.action, msg, some ty⟩] })

/-- The `for step in plan.steps` loop of `Executor.execute`.  Returns the
mutated steps, the final context, and — as instrumentation for the state
machine — the list of step-status assignments performed (`step.status = ...`
at the success and the two failure branches), in order. -/
def execLoop {α : Type} (tools : List String)
    (env : String → Args → ToolOutcome α) :
    List (Step α) → Ctx α → List (Step α) × Ctx α × List (Nat × StepStatus)
  | [], ctx => ([], ctx, [])
  | st :: rest, ctx =>
    match executeStep tools env st with
    | .ok r =>
      let st' := { st with status := .success, result := some r }
      let ctx' := { ctx with
        observations := dictInsert st.step r ctx.observations }
      let out := execLoop tools env rest ctx'
      (st' :: out.1, out.2.1, (st.step, StepStatus.success) :: out.2.2)
    | .timeout =>
      let st' :=
        { st with status := .failed, error := some "Step execution timed out" }
      let ctx' := { ctx with
        errors := ctx.errors ++ [⟨st.step, Option.none, "timeout", Option.none⟩] }
      let he := handleError ctx' st "Step timed out" "TimeoutError"
      if he.1 then
        let out := execLoop tools env rest he.2
        (st' :: out.1, out.2.1, (st.step, StepStatus.failed) :: out.2.2)
      else (st' :: rest, he.2, [(st.step, StepStatus.failed)])
    | .exc msg ty =>
      let st' := { st with status := .failed, error := some msg }
      let ctx' := { ctx with
        errors := ctx.errors ++ [⟨st.step, Option.none, msg, Option.none⟩] }
      let he := handleError ctx' st msg ty
      if he.1 then
        let out := execLoop tools env rest he.2
        (st' :: out.1, out.2.1, (st.step, StepStatus.failed) :: out.2.2)
      else (st' :: rest, he.2, [(st.step, StepStatus.failed)])

/-- `ExecutionResult` from `core.py` (the fields `Executor.execute` sets),
plus the status-assignment trace instrumentation. -/
structure ExecResult (α : Type) where
  status : ExecutionStatus
  plan : Plan α
  ctx : Ctx α
  trace : List (Nat × StepStatus)
deriving DecidableEq

/-- The final-status computation of `Executor.execute`: `SUCCESS` iff every
step's status is `SUCCESS` or `SKIPPED`, else `FAILED`. -/
def overallStatus {α : Type} (steps : List (Step α)) : ExecutionStatus :=
  if steps.all (fun s =>
      s.status = StepStatus.success ∨ s.status = StepStatus.skipped) then
    ExecutionStatus.success
  else ExecutionStatus.failed

/-- `Executor.execute` with an explicit pre-existing context: run the step
loop, then compute the final status. -/
def executeWith {α : Type} (tools : List String)
    (env : String → Args → ToolOutcome α) (plan : Plan α) (ctx : Ctx α) :
    ExecResult α :=
  let out := execLoop tools env plan.steps ctx
  ⟨overallStatus out.1, { plan with steps := out.1 }, out.2.1, out.2.2⟩

/-- `Executor.execute` with `context=None`: a fresh `ExecutionContext` is
created from the plan's goal. -/
def executeModel {α : Type} (tools : List String)
    (env : String → Args → ToolOutcome α) (plan : Plan α) : ExecResult α :=
  executeWith tools env plan ⟨plan.goal, [], []⟩

/-! ### Lemmas about the executor loop -/

/-- Unfolding of `executeModel` to its components. -/
theorem executeModel_eq {α : Type} (tools : List String)
    (env : String → Args → ToolOutcome α) (plan : Plan α) :
    executeModel tools env plan =
      ⟨overallStatus (execLoop tools env plan.steps ⟨plan.goal, [], []⟩).1,
        { plan with
            steps := (execLoop tools env plan.steps ⟨plan.goal, [], []⟩).1 },
        (execLoop tools env plan.steps ⟨plan.goal, [], []⟩).2.1,
        (execLoop tools env plan.steps ⟨plan.goal, [], []⟩).2.2⟩ := rfl

/-- If some returned step is `FAILED`, the overall status is `failed`. -/
theorem overallStatus_failed_of_mem {α : Type} (steps : List (Step α))
    (s : Step α) (hs : s ∈ steps) (hf : s.status = StepStatus.failed) :
    overallStatus steps = ExecutionStatus.failed := by
  unfold overallStatus
  rw [if_neg]
  intro hall
  rw [List.all_eq_true] at hall
  have := hall s hs
  rw [hf] at this
  simp at this

/-- If every returned step is `SUCCESS`, the overall status is `success`. -/
theorem overallStatus_success_of_all {α : Type} (steps : List (Step α))
    (h : ∀ s ∈ steps, s.status = StepStatus.success) :
    overallStatus steps = ExecutionStatus.success := by
  unfold overallStatus
  rw [if_pos]
  rw [List.all_eq_true]
  intro s hs
  simp [h s hs]

/-- Both branches of the continue-or-stop decision in `Executor.handle_error`
return `False`: the run stops after any step failure, whatever the error
kind. -/
theorem handleErrorDecision_eq_false (ty : String) :
    handleErrorDecision ty = false := by
  unfold handleErrorDecision
  split <;> rfl

/-- Inserting a fresh key into a Python dict appends the entry. -/
theorem dictInsert_fresh {α : Type} (k : Nat) (v : α)
    (l : List (Nat × α)) (h : k ∉ l.map Prod.fst) :
    dictInsert k v l = l ++ [(k, v)] := by
  induction l with
  | nil => rfl
  | cons kv rest ih =>
    obtain ⟨k', v'⟩ := kv
    simp only [List.map_cons, List.mem_cons] at h
    push_neg at h
    simp only [dictInsert]
    rw [if_neg (fun he => h.1 he.symm), ih h.2]
    rfl

/-- Shape of the executor loop when every step's invocation succeeds: every
step is marked `SUCCESS` with its result stored, the observations dict
receives one entry per step in order, the error list is untouched, and the
status-assignment trace is one `SUCCESS` assignment per step. -/
theorem execLoop_all_ok {α : Type} (tools : List String)
    (env : String → Args → ToolOutcome α) (res : Step α → Obs α) :
    ∀ (steps : List (Step α)) (ctx : Ctx α),
      (∀ s ∈ steps, executeStep tools env s = .ok (res s)) →
      execLoop tools env steps ctx =
        (steps.map (fun s =>
            { s with status := .success, result := some (res s) }),
          { ctx with
              observations :=
                steps.foldl (fun o s => dictInsert s.step (res s) o)
                  ctx.observations },
          steps.map (fun s => (s.step, StepStatus.success))) := by
  intro steps
  induction steps with
  | nil => intro ctx _; rfl
  | cons s rest ih =>
    intro ctx h
    have hs := h s (List.mem_cons_self s rest)
    have hrest : ∀ t ∈ rest, executeStep tools env t = .ok (res t) :=
      fun t ht => h t (List.mem_cons_of_mem s ht)
    simp only [execLoop, hs]
    rw [ih _ hrest]
    simp [List.foldl_cons]

/-- Folding dict insertions over steps with pairwise-distinct step numbers,
none already present, appends one observation entry per step. -/
theorem foldl_dictInsert_fresh {α : Type} (res : Step α → Obs α) :
    ∀ (steps : List (Step α)) (init : List (Nat × Obs α)),
      (∀ s ∈ steps, s.step ∉ init.map Prod.fst) →
      (steps.map Step.step).Nodup →
      steps.foldl (fun o s => dictInsert s.step (res s) o) init =
        init ++ steps.map (fun s => (s.step, res s)) := by
  intro steps
  induction steps with
  | nil => intro init _ _; simp
  | cons s rest ih =>
    intro init hfresh hnodup
    simp only [List.map_cons, List.nodup_cons] at hnodup
    have hs : s.step ∉ init.map Prod.fst :=
      hfresh s (List.mem_cons_self s rest)
    simp only [List.foldl_cons]
    rw [dictInsert_fresh s.step (res s) init hs]
    rw [ih (init ++ [(s.step, res s)]) ?_ hnodup.2]
    · simp
    · intro t ht
      simp only [List.map_append, List.mem_append, List.map_cons]
      push_neg
      refine ⟨hfresh t (List.mem_cons_of_mem s ht), ?_⟩
      simp only [List.map_nil, List.mem_singleton]
      intro he
      exact hnodup.1 (he ▸ List.mem_map_of_mem Step.step ht)

/-- Shape of the executor loop at the first failing step: the preceding steps
are marked `SUCCESS`, the failing step is marked `FAILED`, the loop stops (the
remaining steps are returned untouched), the context receives exactly two
error records for the failing step — first the loop's short
`{"step", "error"}` record, then `handle_error`'s full
`{"step", "action", "error", "error_type"}` record — and the trace shows one
`SUCCESS` assignment per preceding step followed by one `FAILED`
assignment. -/
theorem execLoop_first_failure {α : Type} (tools : List String)
    (env : String → Args → ToolOutcome α) (sk : Step α)
    (post : List (Step α)) :
    ∀ (pre : List (Step α)) (ctx : Ctx α),
      (∀ s ∈ pre, ∃ r, executeStep tools env s = .ok r) →
      (∀ r, executeStep tools env sk ≠ .ok r) →
      ∃ (pre' : List (Step α)) (sk' : Step α) (obs' : List (Nat × Obs α))
        (m₁ m₂ ty : String),
        execLoop tools env (pre ++ sk :: post) ctx =
          (pre' ++ sk' :: post,
            ⟨ctx.goal, obs',
              ctx.errors ++ [⟨sk.step, Option.none, m₁, Option.none⟩,
                ⟨sk.step, some sk.action, m₂, some ty⟩]⟩,
            (pre.map fun s => (s.step, StepStatus.success)) ++
              [(sk.step, StepStatus.failed)]) ∧
          pre'.length = pre.length ∧
          (∀ s ∈ pre', s.status = StepStatus.success) ∧
          sk'.status = StepStatus.failed ∧ sk'.step = sk.step ∧
          sk'.action = sk.action := by
  intro pre
  induction pre with
  | nil =>
    intro ctx _ hfail
    cases hout : executeStep tools env sk with
    | ok r => exact absurd hout (hfail r)
    | timeout =>
      refine ⟨[],
        { sk with
            status := .failed
            error := some "Step execution timed out" },
        ctx.observations, "timeout", "Step timed out", "TimeoutError", ?_⟩
      simp [execLoop, hout, handleError, handleErrorDecision_eq_false]
    | exc msg ty =>
      refine ⟨[],
        { sk with
            status := .failed
            error := some msg },
        ctx.observations, msg, msg, ty, ?_⟩
      simp [execLoop, hout, handleError, handleErrorDecision_eq_false]
  | cons s rest ih =>
    intro ctx hpre hfail
    obtain ⟨r, hr⟩ := hpre s (List.mem_cons_self s rest)
    have hrest : ∀ t ∈ rest, ∃ r, executeStep tools env t = .ok r :=
      fun t ht => hpre t (List.mem_cons_of_mem s ht)
    obtain ⟨pre', sk', obs', m₁, m₂, ty, heq, hlen, hsucc, hst, hstep, hact⟩ :=
      ih { ctx with observations := dictInsert s.step r ctx.observations }
        hrest hfail
    refine ⟨{ s with status := .success, result := some r } :: pre', sk',
      obs', m₁, m₂, ty, ?_, by simp [hlen], ?_, hst, hstep, hact⟩
    · simp only [List.cons_append, execLoop, hr, List.append_eq]
      rw [heq]
      simp
    · intro t ht
      rcases List.mem_cons.mp ht with ht | ht
      · simp [ht]
      · exact hsucc t ht

/-- The executor loop never assigns the `RUNNING` status: every entry of the
status-assignment trace is `SUCCESS` or `FAILED`, and every returned step's
status is its untouched input status or one of those two. -/
theorem execLoop_no_running {α : Type} (tools : List String)
    (env : String → Args → ToolOutcome α) :
    ∀ (steps : List (Step α)) (ctx : Ctx α),
      (∀ s ∈ steps, s.status ≠ StepStatus.running) →
      (∀ e ∈ (execLoop tools env steps ctx).2.2,
          e.2 = StepStatus.success ∨ e.2 = StepStatus.failed) ∧
      (∀ s ∈ (execLoop tools env steps ctx).1,
          s.status ≠ StepStatus.running) := by
  intro steps
  induction steps with
  | nil => intro ctx _; exact ⟨by simp [execLoop], by simp [execLoop]⟩
  | cons s rest ih =>
    intro ctx h
    have hs := h s (List.mem_cons_self s rest)
    have hrest : ∀ t ∈ rest, t.status ≠ StepStatus.running :=
      fun t ht => h t (List.mem_cons_of_mem s ht)
    cases hout : executeStep tools env s with
    | ok r =>
      obtain ⟨ih1, ih2⟩ :=
        ih { ctx with observations := dictInsert s.step r ctx.observations }
          hrest
      constructor
      · intro e he
        simp only [execLoop, hout, List.mem_cons] at he
        rcases he with he | he
        · simp [he]
        · exact ih1 e he
      · intro t ht
        simp only [execLoop, hout, List.mem_cons] at ht
        rcases ht with ht | ht
        · simp [ht]
        · exact ih2 t ht
    | timeout =>
      constructor
      · intro e he
        simp only [execLoop, hout, handleError, handleErrorDecision_eq_false,
          Bool.false_eq_true, if_false, List.mem_singleton] at he
        simp [he]
      · intro t ht
        simp only [execLoop, hout, handleError, handleErrorDecision_eq_false,
          Bool.false_eq_true, if_false, List.mem_cons] at ht
        rcases ht with ht | ht
        · simp [ht]
        · exact hrest t ht
    | exc msg ty =>
      constructor
      · intro e he
        simp only [execLoop, hout, handleError, handleErrorDecision_eq_false,
          Bool.false_eq_true, if_false, List.mem_singleton] at he
        simp [he]
      · intro t ht
        simp only [execLoop, hout, handleError, handleErrorDecision_eq_false,
          Bool.false_eq_true, if_false, List.mem_cons] at ht
        rcases ht with ht | ht
        · simp [ht]
        · exact hrest t ht

/-! ### Claim theorems for the executor -/

/-- C3: for every plan with `N` steps numbered `1..N` whose tool invocations
all succeed, `execute` returns status `success` and a context whose
observations dict holds exactly `N` entries, one keyed by each step number
and equal to that step's tool result. -/
theorem all_success_observations {α : Type} (tools : List String)
    (env : String → Args → ToolOutcome α) (plan : Plan α)
    (res : Step α → Obs α)
    (hnum : plan.steps.map Step.step = List.range' 1 plan.steps.length)
    (henv : ∀ s ∈ plan.steps, executeStep tools env s = .ok (res s)) :
    (executeModel tools env plan).status = ExecutionStatus.success ∧
    (executeModel tools env plan).ctx.observations =
      plan.steps.map (fun s => (s.step, res s)) ∧
    (executeModel tools env plan).ctx.observations.length =
      plan.steps.length := by
  have hloop := execLoop_all_ok tools env res plan.steps ⟨plan.goal, [], []⟩ henv
  have hnodup : (plan.steps.map Step.step).Nodup := by
    rw [hnum]; exact List.nodup_range' _ _
  have hobs := foldl_dictInsert_fresh res plan.steps [] (by simp) hnodup
  rw [executeModel_eq, hloop]
  simp only [List.nil_append] at hobs
  refine ⟨?_, ?_, ?_⟩
  · exact overallStatus_success_of_all _ (by
      intro s' hs'
      obtain ⟨s, _, rfl⟩ := List.mem_map.mp hs'
      rfl)
  · simpa using hobs
  · show (plan.steps.foldl (fun o s => dictInsert s.step (res s) o) []).length
      = plan.steps.length
    rw [hobs]
    simp

/-- Witness for C3 at a concrete input: a two-step plan (a registry tool call
and a `confirm_action` pseudo-action), both succeeding, yields overall
`success` and observations `{1: tool result, 2: confirmed}`. -/
theorem all_success_observations_witness :
    (executeModel ["file_list"] (fun _ _ => ToolOutcome.ok (0 : Nat))
      ⟨"demo", [⟨1, "file_list", "", [], .pending, Option.none, Option.none⟩,
        ⟨2, "confirm_action", "", [], .pending, Option.none,
          Option.none⟩]⟩).status = ExecutionStatus.success ∧
    (executeModel ["file_list"] (fun _ _ => ToolOutcome.ok (0 : Nat))
      ⟨"demo", [⟨1, "file_list", "", [], .pending, Option.none, Option.none⟩,
        ⟨2, "confirm_action", "", [], .pending, Option.none,
          Option.none⟩]⟩).ctx.observations =
      [(1, Obs.tool 0), (2, Obs.confirm)] := by
  have h := all_success_observations ["file_list"]
    (fun _ _ => ToolOutcome.ok (0 : Nat))
    ⟨"demo", [⟨1, "file_list", "", [], .pending, Option.none, Option.none⟩,
      ⟨2, "confirm_action", "", [], .pending, Option.none, Option.none⟩]⟩
    (fun s => if s.step = 1 then Obs.tool 0 else Obs.confirm)
    (by decide) (by decide)
  refine ⟨h.1, ?_⟩
  rw [h.2.1]
  rfl

/-- C4: for every plan whose step `k` is the first failing step (whatever the
error kind), the run stops: the continuation decision returns stop for every
error kind, steps `k+1..N` are returned untouched and still `pending`, step
`k` ends `failed`, and the overall status is `failed`. -/
theorem failure_stops_run {α : Type} (tools : List String)
    (env : String → Args → ToolOutcome α) (plan : Plan α)
    (pre : List (Step α)) (sk : Step α) (post : List (Step α))
    (hsplit : plan.steps = pre ++ sk :: post)
    (hpre : ∀ s ∈ pre, ∃ r, executeStep tools env s = .ok r)
    (hfail : ∀ r, executeStep tools env sk ≠ .ok r)
    (hpending : ∀ s ∈ post, s.status = StepStatus.pending) :
    (∀ ty, handleErrorDecision ty = false) ∧
    (executeModel tools env plan).status = ExecutionStatus.failed ∧
    (executeModel tools env plan).plan.steps.drop (pre.length + 1) = post ∧
    (∀ s ∈ (executeModel tools env plan).plan.steps.drop (pre.length + 1),
        s.status = StepStatus.pending) ∧
    ((executeModel tools env plan).plan.steps.get? pre.length).map
      Step.status = some StepStatus.failed := by
  obtain ⟨pre', sk', obs', m₁, m₂, ty, heq, hlen, _, hst, _, _⟩ :=
    execLoop_first_failure tools env sk post pre ⟨plan.goal, [], []⟩
      hpre hfail
  rw [executeModel_eq, hsplit, heq]
  have hdrop : (pre' ++ sk' :: post).drop (pre.length + 1) = post := by
    rw [← hlen]
    have hsh : pre' ++ sk' :: post = (pre' ++ [sk']) ++ post := by simp
    rw [hsh, show pre'.length + 1 = (pre' ++ [sk']).length by simp]
    exact List.drop_left _ _
  have hget : (pre' ++ sk' :: post).get? pre.length = some sk' := by
    rw [← hlen]
    rw [List.get?_append_right (Nat.le_refl _)]
    simp
  refine ⟨handleErrorDecision_eq_false, ?_, ?_, ?_, ?_⟩
  · exact overallStatus_failed_of_mem _ sk' (by simp) hst
  · show (pre' ++ sk' :: post).drop (pre.length + 1) = post
    exact hdrop
  · intro s hs
    refine hpending s ?_
    have hs2 : s ∈ (pre' ++ sk' :: post).drop (pre.length + 1) := hs
    rwa [hdrop] at hs2
  · show ((pre' ++ sk' :: post).get? pre.length).map Step.status =
      some StepStatus.failed
    rw [hget]
    simp [hst]

/-- Witness for C4 at a concrete input: in a three-step plan where step 2
names an unregistered tool, step 1 succeeds, step 2 fails, step 3 stays
`pending`, and the run is `failed`. -/
theorem failure_stops_run_witness :
    (executeModel ["file_read"] (fun _ _ => ToolOutcome.ok (0 : Nat))
      ⟨"g", [⟨1, "confirm_action", "", [], .pending, Option.none, Option.none⟩,
        ⟨2, "boom", "", [], .pending, Option.none, Option.none⟩,
        ⟨3, "file_read", "", [], .pending, Option.none,
          Option.none⟩]⟩).status = ExecutionStatus.failed ∧
    ((executeModel ["file_read"] (fun _ _ => ToolOutcome.ok (0 : Nat))
      ⟨"g", [⟨1, "confirm_action", "", [], .pending, Option.none, Option.none⟩,
        ⟨2, "boom", "", [], .pending, Option.none, Option.none⟩,
        ⟨3, "file_read", "", [], .pending, Option.none,
          Option.none⟩]⟩).plan.steps.get? 1).map Step.status =
      some StepStatus.failed ∧
    (executeModel ["file_read"] (fun _ _ => ToolOutcome.ok (0 : Nat))
      ⟨"g", [⟨1, "confirm_action", "", [], .pending, Option.none, Option.none⟩,
        ⟨2, "boom", "", [], .pending, Option.none, Option.none⟩,
        ⟨3, "file_read", "", [], .pending, Option.none,
          Option.none⟩]⟩).plan.steps.drop 2 =
      [⟨3, "file_read", "", [], .pending, Option.none, Option.none⟩] := by
  have h := failure_stops_run ["file_read"]
    (fun _ _ => ToolOutcome.ok (0 : Nat))
    ⟨"g", [⟨1, "confirm_action", "", [], .pending, Option.none, Option.none⟩,
      ⟨2, "boom", "", [], .pending, Option.none, Option.none⟩,
      ⟨3, "file_read", "", [], .pending, Option.none, Option.none⟩]⟩
    [⟨1, "confirm_action", "", [], .pending, Option.none, Option.none⟩]
    ⟨2, "boom", "", [], .pending, Option.none, Option.none⟩
    [⟨3, "file_read", "", [], .pending, Option.none, Option.none⟩]
    rfl
    (by
      intro s hs
      rw [List.mem_singleton] at hs
      subst hs
      exact ⟨Obs.confirm, rfl⟩)
    (by
      intro r hr
      rw [show executeStep ["file_read"]
          (fun _ _ => ToolOutcome.ok (0 : Nat))
          (⟨2, "boom", "", [], .pending, Option.none, Option.none⟩ : Step Nat)
        = ToolOutcome.exc "Unknown tool: boom" "ValueError" by decide] at hr
      cases hr)
    (by decide)
  exact ⟨h.2.1, h.2.2.2.2, h.2.2.1⟩

/-- C8 counterexample: a one-step plan whose step is dispatched through the
registry and succeeds.  The status-assignment trace of the run contains no
`RUNNING` assignment at all — the step is never set to `running` before tool
dispatch; its status moves directly from `pending` to `success`. -/
theorem running_never_assigned_counterexample :
    (executeModel ["file_read"] (fun _ _ => ToolOutcome.ok (0 : Nat))
      ⟨"g", [⟨1, "file_read", "", [], .pending, Option.none,
        Option.none⟩]⟩).trace = [(1, StepStatus.success)] ∧
    (1, StepStatus.running) ∉
      (executeModel ["file_read"] (fun _ _ => ToolOutcome.ok (0 : Nat))
        ⟨"g", [⟨1, "file_read", "", [], .pending, Option.none,
          Option.none⟩]⟩).trace := by
  decide

/-- C8 as amended: the executor never assigns the `RUNNING` status — every
status assignment in the trace is `SUCCESS` or `FAILED` — and when `execute`
returns, no step of a plan whose steps started `pending` has status
`RUNNING`. -/
theorem running_never_assigned {α : Type} (tools : List String)
    (env : String → Args → ToolOutcome α) (plan : Plan α)
    (hpending : ∀ s ∈ plan.steps, s.status = StepStatus.pending) :
    (∀ e ∈ (executeModel tools env plan).trace,
        e.2 = StepStatus.success ∨ e.2 = StepStatus.failed) ∧
    (∀ s ∈ (executeModel tools env plan).plan.steps,
        s.status ≠ StepStatus.running) := by
  have h := execLoop_no_running tools env plan.steps ⟨plan.goal, [], []⟩
    (by intro s hs; rw [hpending s hs]; intro hc; cases hc)
  exact ⟨h.1, h.2⟩

/-- Witness for the amended C8 at a concrete input: a one-step `wait` plan
runs with no `RUNNING` assignment recorded and no step left `running`. -/
theorem running_never_assigned_witness :
    (executeModel [] (fun _ _ => ToolOutcome.ok (0 : Nat))
      ⟨"w", [⟨1, "wait", "", [("seconds", PyVal.int 2)], .pending,
        Option.none, Option.none⟩]⟩).trace.all
      (fun e => !(e.2 == StepStatus.running)) = true ∧
    (executeModel [] (fun _ _ => ToolOutcome.ok (0 : Nat))
      ⟨"w", [⟨1, "wait", "", [("seconds", PyVal.int 2)], .pending,
        Option.none, Option.none⟩]⟩).plan.steps.all
      (fun s => !(s.status == StepStatus.running)) = true := by
  have h := running_never_assigned [] (fun _ _ => ToolOutcome.ok (0 : Nat))
    ⟨"w", [⟨1, "wait", "", [("seconds", PyVal.int 2)], .pending,
      Option.none, Option.none⟩]⟩ (by decide)
  constructor
  · rw [List.all_eq_true]
    intro e he
    rcases h.1 e he with h' | h' <;> simp [h']
  · rw [List.all_eq_true]
    intro s hs
    have := h.2 s hs
    simpa using this

/-- C9 counterexample: a one-step plan whose single step fails (unknown tool)
ends with TWO error records in the context for that one failing step, and the
first record carries no action name and no error kind — refuting "exactly one
error record per failing step, each carrying step number, action, error text,
and error kind". -/
theorem one_error_record_counterexample :
    (executeModel [] (fun _ _ => ToolOutcome.ok (0 : Nat))
      ⟨"g", [⟨1, "nope", "", [], .pending, Option.none,
        Option.none⟩]⟩).plan.steps.map Step.status = [StepStatus.failed] ∧
    (executeModel [] (fun _ _ => ToolOutcome.ok (0 : Nat))
      ⟨"g", [⟨1, "nope", "", [], .pending, Option.none,
        Option.none⟩]⟩).ctx.errors.length = 2 ∧
    (executeModel [] (fun _ _ => ToolOutcome.ok (0 : Nat))
      ⟨"g", [⟨1, "nope", "", [], .pending, Option.none,
        Option.none⟩]⟩).ctx.errors.map ErrorRecord.action =
      [Option.none, some "nope"] := by
  decide

/-- C9 as amended: a run started from a fresh context whose first failing
step is `sk` ends with exactly two error records, both for `sk`: first the
loop's short record carrying only the step number and an error text, then
`handle_error`'s full record carrying step number, action, error text, and
error kind. -/
theorem two_error_records_per_failing_step {α : Type} (tools : List String)
    (env : String → Args → ToolOutcome α) (plan : Plan α)
    (pre : List (Step α)) (sk : Step α) (post : List (Step α))
    (hsplit : plan.steps = pre ++ sk :: post)
    (hpre : ∀ s ∈ pre, ∃ r, executeStep tools env s = .ok r)
    (hfail : ∀ r, executeStep tools env sk ≠ .ok r) :
    ∃ m₁ m₂ ty,
      (executeModel tools env plan).ctx.errors =
        [⟨sk.step, Option.none, m₁, Option.none⟩,
          ⟨sk.step, some sk.action, m₂, some ty⟩] := by
  obtain ⟨pre', sk', obs', m₁, m₂, ty, heq, _⟩ :=
    execLoop_first_failure tools env sk post pre ⟨plan.goal, [], []⟩
      hpre hfail
  refine ⟨m₁, m₂, ty, ?_⟩
  rw [executeModel_eq, hsplit, heq]
  simp

/-- Witness for the amended C9 at a concrete input: a one-step plan whose
tool invocation times out ends with exactly two error records. -/
theorem two_error_records_per_failing_step_witness :
    (executeModel ["run_command"] (fun _ _ => ToolOutcome.timeout)
      ⟨"t", [⟨1, "run_command", "", [], .pending, Option.none,
        (Option.none : Option (Obs Nat))⟩]⟩).ctx.errors.length = 2 := by
  obtain ⟨m₁, m₂, ty, he⟩ := two_error_records_per_failing_step
    ["run_command"] (fun _ _ => ToolOutcome.timeout)
    ⟨"t", [⟨1, "run_command", "", [], .pending, Option.none,
      (Option.none : Option (Obs Nat))⟩]⟩
    [] ⟨1, "run_command", "", [], .pending, Option.none, Option.none⟩ []
    rfl (by intro s hs; cases hs)
    (by
      intro r hr
      rw [show executeStep ["run_command"]
          (fun _ _ => (ToolOutcome.timeout : ToolOutcome Nat))
          (⟨1, "run_command", "", [], .pending, Option.none, Option.none⟩ :
            Step Nat)
        = ToolOutcome.timeout by decide] at hr
      cases hr)
  rw [he]
  rfl

/-! ## Docker sandbox (`sandbox/docker_runner.py`)

`run_command` generates a fresh container id, runs the engine interaction
under `asyncio.wait_for`, and has a `finally` block that invokes
`_cleanup_container` — but only when `config.remove_after` is set.  The
engine interaction for one invocation is modelled by an `EngineBehavior`:
it completes with an exit code and captured streams, raises (wrapped into
`RuntimeError("Docker execution failed: ...")` by `_execute_docker`), or
exceeds the wall-clock deadline (surfaced as
`TimeoutError("Command exceeded ...s timeout")`).
-/

/-- `SandboxConfig` dataclass (the fields `run_command` reads). -/
structure SandboxConfig where
  timeout_seconds : Nat := 60
  remove_after : Bool := true
deriving DecidableEq, Repr

/-- Behaviour of the underlying container engine for one invocation. -/
inductive EngineBehavior where
  | completes (returncode : Int) (stdout stderr : String)
  | fails (msg : String)
  | hangs
deriving DecidableEq, Repr

/-- What `DockerSandbox.run_command` surfaces to its caller. -/
inductive RunOutcome where
  | ok (returncode : Int) (stdout stderr : String)
  | timeoutError (msg : String)
  | runtimeError (msg : String)
deriving DecidableEq, Repr

/-- `DockerSandbox.run_command`: the returned value or raised error, paired
with whether `_cleanup_container` was invoked before returning or raising.
The `finally` block runs on every path — normal return, non-zero exit,
engine failure, and timeout — but calls `_cleanup_container` only when
`config.remove_after` holds. -/
def runCommand (cfg : SandboxConfig) (engine : EngineBehavior) :
    RunOutcome × Bool :=
  let outcome :=
    match engine with
    | .completes c o e => RunOutcome.ok c o e
    | .fails m => RunOutcome.runtimeError ("Docker execution failed: " ++ m)
    | .hangs =>
      RunOutcome.timeoutError
        ("Command exceeded " ++ toString cfg.timeout_seconds ++ "s timeout")
  (outcome, cfg.remove_after)

/-- C2 counterexample: with `remove_after = false` in the sandbox config, a
timed-out invocation surfaces the timeout error without `_cleanup_container`
ever being invoked — the isolated environment of that invocation leaks, so
teardown is NOT invoked on every invocation. -/
theorem sandbox_cleanup_counterexample :
    (runCommand { timeout_seconds := 60, remove_after := false }
      EngineBehavior.hangs).1 =
      RunOutcome.timeoutError "Command exceeded 60s timeout" ∧
    (runCommand { timeout_seconds := 60, remove_after := false }
      EngineBehavior.hangs).2 = false := by
  constructor
  · rfl
  · rfl

/-- C2 as amended: for every invocation of `run_command` on a sandbox whose
config has `remove_after` set (the default), container teardown is invoked
before the call returns or its error is surfaced — on normal completion
(any exit code), on engine failure, and on timeout alike. -/
theorem sandbox_cleanup_always (cfg : SandboxConfig)
    (engine : EngineBehavior) (h : cfg.remove_after = true) :
    (runCommand cfg engine).2 = true ∧
    (∀ c o e, engine = .completes c o e →
      (runCommand cfg engine).1 = RunOutcome.ok c o e) ∧
    (∀ m, engine = .fails m →
      (runCommand cfg engine).1 =
        RunOutcome.runtimeError ("Docker execution failed: " ++ m)) ∧
    (engine = .hangs →
      (runCommand cfg engine).1 =
        RunOutcome.timeoutError
          ("Command exceeded " ++ toString cfg.timeout_seconds ++
            "s timeout")) := by
  refine ⟨h, ?_, ?_, ?_⟩
  · intro c o e he; subst he; rfl
  · intro m he; subst he; rfl
  · intro he; subst he; rfl

/-- Witness for the amended C2 at a concrete input: the default config tears
down even on timeout, and a non-zero exit also cleans up. -/
theorem sandbox_cleanup_always_witness :
    (runCommand {} EngineBehavior.hangs).2 = true ∧
    (runCommand {} (EngineBehavior.completes 7 "" "err")).2 = true ∧
    (runCommand {} (EngineBehavior.completes 7 "" "err")).1 =
      RunOutcome.ok 7 "" "err" :=
  ⟨(sandbox_cleanup_always {} EngineBehavior.hangs rfl).1,
    (sandbox_cleanup_always {} (EngineBehavior.completes 7 "" "err") rfl).1,
    (sandbox_cleanup_always {} (EngineBehavior.completes 7 "" "err")
      rfl).2.1 7 "" "err" rfl⟩

/-! ## Filesystem tools (`tools/filesystem.py`)

The filesystem is a map from resolved absolute paths (component lists) to
entries (regular file with its text content, or directory); `none` means the
path does not exist.  File contents are lists of characters.
-/

/-- A filesystem entry: a regular file with its contents, or a directory. -/
inductive FsEntry where
  | file (content : List Char)
  | dir
deriving DecidableEq

/-- The filesystem state. -/
abbrev Fs := List String → Option FsEntry

/-- Result dict of `FileDeleteTool.execute`. -/
inductive DeleteResult where
  | success (path : List String)
  | failed (error : String)
deriving DecidableEq

/-- `FileDeleteTool.execute`: resolve the path, fail if it does not exist or
is not a regular file, otherwise `unlink` it and report success.  Faithful to
the source, it consults no permission policy whatsoever — the confirmation /
permission mechanism is an unimplemented TODO (filesystem.py line 357), and
neither the tool nor `Executor.execute_step` calls
`PermissionManager.can_delete_file`. -/
def fileDeleteExecute (fs : Fs) (path : List String) : DeleteResult × Fs :=
  match fs path with
  | Option.none => (.failed "File not found", fs)
  | some .dir => (.failed "Path is not a file", fs)
  | some (.file _) =>
    (.success path, fun q => if q = path then Option.none else fs q)

/-- C1 evidence: a concrete file under a folder rule with `read_write`
access and `allow_delete = false`.  The policy engine answers that deletion
is forbidden (`can_delete_file` is false), yet `FileDeleteTool.execute`
reports success and the file is gone afterward: no permission-denied failure
is raised before the filesystem is touched, contradicting the claim. -/
theorem file_delete_ignores_policy :
    canDeleteFile ⟨[⟨["home"], AccessLevel.write, false, false⟩], Option.none⟩
      ["home", "a.txt"] = false ∧
    (fileDeleteExecute
      (fun q => if q = ["home", "a.txt"] then
        some (FsEntry.file ['h', 'i']) else Option.none)
      ["home", "a.txt"]).1 = DeleteResult.success ["home", "a.txt"] ∧
    (fileDeleteExecute
      (fun q => if q = ["home", "a.txt"] then
        some (FsEntry.file ['h', 'i']) else Option.none)
      ["home", "a.txt"]).2 ["home", "a.txt"] = Option.none := by
  refine ⟨by decide, ?_, ?_⟩
  · rfl
  · simp [fileDeleteExecute]

/-! ### Python string semantics for `TextReplaceTool`

`TextReplaceTool.execute` uses `old_text not in content`,
`content.replace(old_text, new_text)` and `content.count(old_text)`.  These
are modelled over `List Char`:

* `hasSubstr old s` is Python `old in s` (contiguous substring; the empty
  string is a substring of everything);
* `pyCount old s` is Python `s.count(old)`: the number of non-overlapping
  occurrences scanning left to right, and `len(s) + 1` for the empty pattern;
* `splitOnSub old s` is Python `s.split(old)` (extended to the empty pattern
  with the part list `[""] ++ [[c] for c in s] ++ [""]`), and
  `pyReplace s old new` is Python `s.replace(old, new)`, i.e. the split parts
  joined with the replacement.

The scanning recursions consume `old.length ≥ 1` characters on a match, which
list recursion cannot see, so they carry an explicit fuel argument; the
wrappers supply fuel `s.length + 1`, which the lemmas show is sufficient.
-/

/-- Python `old in s` (contiguous substring test). -/
def hasSubstr (old : List Char) : List Char → Bool
  | [] => old.isEmpty
  | c :: rest => old.isPrefixOf (c :: rest) || hasSubstr old rest

/-- Fuelled scan for Python `s.count(old)`. -/
def pyCountF (old : List Char) : Nat → List Char → Nat
  | 0, _ => 0
  | _ + 1, [] => if old.isEmpty then 1 else 0
  | fuel + 1, c :: rest =>
    if old.isEmpty then 1 + pyCountF old fuel rest
    else if old.isPrefixOf (c :: rest) then
      1 + pyCountF old fuel ((c :: rest).drop old.length)
    else pyCountF old fuel rest

/-- Python `s.count(old)`. -/
def pyCount (old s : List Char) : Nat := pyCountF old (s.length + 1) s

/-- Fuelled scan for Python `s.split(old)` with a non-empty separator. -/
def splitGoF (old : List Char) : Nat → List Char → List (List Char)
  | 0, _ => []
  | _ + 1, [] => [[]]
  | fuel + 1, c :: rest =>
    if old.isEmpty = false ∧ old.isPrefixOf (c :: rest) = true then
      [] :: splitGoF old fuel ((c :: rest).drop old.length)
    else
      match splitGoF old fuel rest with
      | [] => [[c]]
      | p :: ps => (c :: p) :: ps

/-- Python `s.split(old)`, extended to the empty separator so that joining
the parts with a replacement matches Python `s.replace("", new)`. -/
def splitOnSub (old s : List Char) : List (List Char) :=
  if old.isEmpty then [] :: (s.map fun c => [c]) ++ [[]]
  else splitGoF old (s.length + 1) s

/-- Python `sep.join(parts)`. -/
def joinWith (sep : List Char) : List (List Char) → List Char
  | [] => []
  | [x] => x
  | x :: y :: rest => x ++ sep ++ joinWith sep (y :: rest)

/-- Python `s.replace(old, new)`: every non-overlapping occurrence of `old`,
scanning left to right, is replaced by `new` — equivalently the split parts
joined with `new`. -/
def pyReplace (s old new : List Char) : List Char :=
  joinWith new (splitOnSub old s)

/-- Result dict of `TextReplaceTool.execute`. -/
inductive TextReplaceResult where
  | failed (error : String)
  | success (path : List String) (occurrences_replaced : Nat)
deriving DecidableEq

/-- `TextReplaceTool.execute`: fail if the path does not exist (or reading
raises, e.g. a directory); fail without writing when `old_text not in
content`; otherwise write `content.replace(old_text, new_text)` back and
report `content.count(old_text)` occurrences replaced. -/
def textReplaceExecute (fs : Fs) (path : List String)
    (old_text new_text : List Char) : TextReplaceResult × Fs :=
  match fs path with
  | Option.none => (.failed "File not found", fs)
  | some .dir => (.failed "Is a directory", fs)
  | some (.file content) =>
    if hasSubstr old_text content = false then
      (.failed "Pattern not found in file", fs)
    else
      (.success path (pyCount old_text content),
        fun q => if q = path then
          some (.file (pyReplace content old_text new_text)) else fs q)

/-! ### Lemmas about the string semantics -/

/-- A list decomposes as a matched prefix followed by the rest. -/
theorem isPrefixOf_decomp (old l : List Char)
    (h : old.isPrefixOf l = true) :
    l = old ++ l.drop old.length ∧ old.length ≤ l.length := by
  obtain ⟨t, ht⟩ := List.isPrefixOf_iff_prefix.mp h
  subst ht
  rw [List.drop_left]
  simp

/-- Joining after peeling one leading character off the first part. -/
theorem joinWith_cons_cons (sep : List Char) (c : Char) (p : List Char)
    (ps : List (List Char)) :
    joinWith sep ((c :: p) :: ps) = c :: joinWith sep (p :: ps) := by
  cases ps with
  | nil => rfl
  | cons y t => simp [joinWith]

/-- Joining with an empty first part prepends the separator. -/
theorem joinWith_nil_cons (sep : List Char) (L : List (List Char))
    (h : L ≠ []) :
    joinWith sep ([] :: L) = sep ++ joinWith sep L := by
  cases L with
  | nil => exact absurd rfl h
  | cons y t => simp [joinWith]

/-- Joining with the empty separator is concatenation. -/
theorem joinWith_nil_sep (L : List (List Char)) :
    joinWith [] L = L.join := by
  induction L with
  | nil => rfl
  | cons x t ih =>
    cases t with
    | nil => simp [joinWith]
    | cons y r =>
      simp only [joinWith, List.join_cons] at ih ⊢
      rw [← ih]
      simp

/-- Concatenating the singleton lists of a string's characters gives it
back. -/
theorem join_map_singleton (s : List Char) :
    (s.map fun c => [c]).join = s := by
  induction s with
  | nil => rfl
  | cons c rest ih => simp [ih]

/-- The split scan never returns an empty part list when given enough
fuel. -/
theorem splitGoF_ne_nil (old : List Char) :
    ∀ (fuel : Nat) (s : List Char), s.length < fuel →
      splitGoF old fuel s ≠ [] := by
  intro fuel
  induction fuel with
  | zero => intro s hs; exact absurd hs (Nat.not_lt_zero _)
  | succ fuel ih =>
    intro s hs
    cases s with
    | nil => simp [splitGoF]
    | cons c rest =>
      simp only [splitGoF]
      by_cases hg : old.isEmpty = false ∧ old.isPrefixOf (c :: rest) = true
      · rw [if_pos hg]; simp
      · rw [if_neg hg]
        cases hsp : splitGoF old fuel rest with
        | nil => simp
        | cons p ps => simp

/-- A non-empty pattern has at least one character. -/
theorem one_le_length_of_isEmpty_false (old : List Char)
    (h : old.isEmpty = false) : 1 ≤ old.length := by
  cases old with
  | nil => cases h
  | cons _ _ => simp

/-- Joining the split parts with the separator itself restores the string:
the split is a decomposition of the input. -/
theorem splitGoF_join (old : List Char) (hne : old.isEmpty = false) :
    ∀ (fuel : Nat) (s : List Char), s.length < fuel →
      joinWith old (splitGoF old fuel s) = s := by
  intro fuel
  induction fuel with
  | zero => intro s hs; exact absurd hs (Nat.not_lt_zero _)
  | succ fuel ih =>
    intro s hs
    cases s with
    | nil => rfl
    | cons c rest =>
      simp only [splitGoF]
      have hrest : rest.length < fuel := by
        simp only [List.length_cons] at hs; omega
      by_cases hpre : old.isPrefixOf (c :: rest) = true
      · rw [if_pos ⟨hne, hpre⟩]
        obtain ⟨hdec, hle⟩ := isPrefixOf_decomp old (c :: rest) hpre
        have hol := one_le_length_of_isEmpty_false old hne
        have hdl : ((c :: rest).drop old.length).length < fuel := by
          rw [List.length_drop]
          simp only [List.length_cons]
          omega
        rw [joinWith_nil_cons old _ (splitGoF_ne_nil old fuel _ hdl)]
        rw [ih _ hdl]
        exact hdec.symm
      · rw [if_neg (fun hg => hpre hg.2)]
        cases hsp : splitGoF old fuel rest with
        | nil => exact absurd hsp (splitGoF_ne_nil old fuel rest hrest)
        | cons p ps =>
          rw [joinWith_cons_cons]
          have hj := ih rest hrest
          rw [hsp] at hj
          rw [hj]

/-- The number of split parts is one more than the occurrence count. -/
theorem splitGoF_length (old : List Char) (hne : old.isEmpty = false) :
    ∀ (fuel : Nat) (s : List Char), s.length < fuel →
      (splitGoF old fuel s).length = pyCountF old fuel s + 1 := by
  intro fuel
  induction fuel with
  | zero => intro s hs; exact absurd hs (Nat.not_lt_zero _)
  | succ fuel ih =>
    intro s hs
    cases s with
    | nil => simp [splitGoF, pyCountF, hne]
    | cons c rest =>
      simp only [splitGoF, pyCountF, hne, Bool.false_eq_true, if_false]
      have hrest : rest.length < fuel := by
        simp only [List.length_cons] at hs; omega
      by_cases hpre : old.isPrefixOf (c :: rest) = true
      · rw [if_pos ⟨trivial, hpre⟩, if_pos hpre]
        have hol := one_le_length_of_isEmpty_false old hne
        have hdl : ((c :: rest).drop old.length).length < fuel := by
          rw [List.length_drop]
          simp only [List.length_cons]
          omega
        rw [List.length_cons, ih _ hdl]
        omega
      · rw [if_neg (fun hg => hpre hg.2), if_neg hpre]
        cases hsp : splitGoF old fuel rest with
        | nil => exact absurd hsp (splitGoF_ne_nil old fuel rest hrest)
        | cons p ps =>
          have hl := ih rest hrest
          rw [hsp] at hl
          simpa using hl

/-- The empty pattern is a substring of every string (Python `"" in s`). -/
theorem hasSubstr_empty (s : List Char) : hasSubstr [] s = true := by
  cases s <;> simp [hasSubstr, List.isPrefixOf]

/-- A pattern that does not occur is non-empty. -/
theorem isEmpty_false_of_not_hasSubstr (old s : List Char)
    (h : hasSubstr old s = false) : old.isEmpty = false := by
  cases old with
  | nil => rw [hasSubstr_empty] at h; cases h
  | cons _ _ => rfl

/-- When the pattern does not occur, the split is a single part: the whole
string. -/
theorem splitGoF_no_occurrence (old : List Char) :
    ∀ (fuel : Nat) (s : List Char), s.length < fuel →
      hasSubstr old s = false → splitGoF old fuel s = [s] := by
  intro fuel
  induction fuel with
  | zero => intro s hs; exact absurd hs (Nat.not_lt_zero _)
  | succ fuel ih =>
    intro s hs h
    cases s with
    | nil => rfl
    | cons c rest =>
      simp only [hasSubstr, Bool.or_eq_false_iff] at h
      simp only [splitGoF]
      rw [if_neg (fun hg => by rw [h.1] at hg; cases hg.2)]
      have hrest : rest.length < fuel := by
        simp only [List.length_cons] at hs; omega
      rw [ih rest hrest h.2]

/-- Occurrence count of the empty pattern (`s.count("") == len(s) + 1`). -/
theorem pyCountF_empty (old : List Char) (he : old.isEmpty = true) :
    ∀ (fuel : Nat) (s : List Char), s.length < fuel →
      pyCountF old fuel s = s.length + 1 := by
  intro fuel
  induction fuel with
  | zero => intro s hs; exact absurd hs (Nat.not_lt_zero _)
  | succ fuel ih =>
    intro s hs
    cases s with
    | nil => simp [pyCountF, he]
    | cons c rest =>
      have hrest : rest.length < fuel := by
        simp only [List.length_cons] at hs; omega
      simp only [pyCountF, he, if_true, List.length_cons]
      rw [ih rest hrest]
      omega

/-- The split parts joined with the pattern give the string back. -/
theorem splitOnSub_join (old s : List Char) :
    joinWith old (splitOnSub old s) = s := by
  by_cases h : old.isEmpty = true
  · unfold splitOnSub
    rw [if_pos h, List.isEmpty_iff.mp h, joinWith_nil_sep]
    simp [List.join_append, join_map_singleton]
  · have hne : old.isEmpty = false := by simpa using h
    unfold splitOnSub
    rw [if_neg (by simp [hne])]
    exact splitGoF_join old hne (s.length + 1) s (by omega)

/-- The number of split parts is one more than `pyCount`. -/
theorem splitOnSub_length (old s : List Char) :
    (splitOnSub old s).length = pyCount old s + 1 := by
  by_cases h : old.isEmpty = true
  · unfold splitOnSub pyCount
    rw [if_pos h, pyCountF_empty old h _ s (by omega)]
    simp
  · have hne : old.isEmpty = false := by simpa using h
    unfold splitOnSub pyCount
    rw [if_neg (by simp [hne])]
    exact splitGoF_length old hne (s.length + 1) s (by omega)

/-- A pattern that does not occur has occurrence count zero. -/
theorem pyCount_eq_zero_of_not_hasSubstr (old s : List Char)
    (h : hasSubstr old s = false) : pyCount old s = 0 := by
  have hne := isEmpty_false_of_not_hasSubstr old s h
  have h1 := splitGoF_no_occurrence old (s.length + 1) s (by omega) h
  have h2 := splitGoF_length old hne (s.length + 1) s (by omega)
  rw [h1] at h2
  simp only [List.length_singleton] at h2
  unfold pyCount
  omega

/-- C10: `text_replace` on an existing readable file — if `old_text` does not
occur, the call fails and the filesystem is untouched (and the occurrence
count of the original is zero); if it occurs, the result reports success with
`occurrences_replaced` equal to the occurrence count of `old_text` in the
original contents, the file's new contents are the original's split parts
joined with `new_text` (the original being those same parts joined with
`old_text` — every occurrence replaced), other paths are untouched, and the
number of parts is the occurrence count plus one. -/
theorem text_replace_spec (fs : Fs) (path : List String)
    (old_text new_text content : List Char)
    (hfile : fs path = some (FsEntry.file content)) :
    (hasSubstr old_text content = false →
      (textReplaceExecute fs path old_text new_text).1 =
        TextReplaceResult.failed "Pattern not found in file" ∧
      (textReplaceExecute fs path old_text new_text).2 = fs ∧
      pyCount old_text content = 0) ∧
    (hasSubstr old_text content = true →
      (textReplaceExecute fs path old_text new_text).1 =
        TextReplaceResult.success path (pyCount old_text content) ∧
      (textReplaceExecute fs path old_text new_text).2 path =
        some (FsEntry.file (pyReplace content old_text new_text)) ∧
      (∀ q, q ≠ path →
        (textReplaceExecute fs path old_text new_text).2 q = fs q) ∧
      joinWith old_text (splitOnSub old_text content) = content ∧
      pyReplace content old_text new_text =
        joinWith new_text (splitOnSub old_text content) ∧
      (splitOnSub old_text content).length =
        pyCount old_text content + 1) := by
  have hexec : textReplaceExecute fs path old_text new_text =
      (if hasSubstr old_text content = false then
        ((TextReplaceResult.failed "Pattern not found in file", fs) :
          TextReplaceResult × Fs)
      else
        (.success path (pyCount old_text content),
          fun q => if q = path then
            some (.file (pyReplace content old_text new_text))
          else fs q)) := by
    unfold textReplaceExecute
    rw [hfile]
  constructor
  · intro h
    rw [hexec, if_pos h]
    exact ⟨rfl, rfl, pyCount_eq_zero_of_not_hasSubstr old_text content h⟩
  · intro h
    have hcond : ¬ (hasSubstr old_text content = false) := by rw [h]; simp
    rw [hexec, if_neg hcond]
    refine ⟨rfl, by simp, ?_, splitOnSub_join old_text content, rfl,
      splitOnSub_length old_text content⟩
    intro q hq
    simp [hq]

/-- Witness for C10 at a concrete input: replacing `"a"` by `"cc"` in a file
containing `"aba"` succeeds with 2 occurrences replaced and contents
`"ccbcc"`. -/
theorem text_replace_spec_witness :
    (textReplaceExecute
      (fun q => if q = ["tmp", "f"] then
        some (FsEntry.file ['a', 'b', 'a']) else Option.none)
      ["tmp", "f"] ['a'] ['c', 'c']).1 =
      TextReplaceResult.success ["tmp", "f"] 2 ∧
    (textReplaceExecute
      (fun q => if q = ["tmp", "f"] then
        some (FsEntry.file ['a', 'b', 'a']) else Option.none)
      ["tmp", "f"] ['a'] ['c', 'c']).2 ["tmp", "f"] =
      some (FsEntry.file ['c', 'c', 'b', 'c', 'c']) := by
  have h := (text_replace_spec
    (fun q => if q = ["tmp", "f"] then
      some (FsEntry.file ['a', 'b', 'a']) else Option.none)
    ["tmp", "f"] ['a'] ['c', 'c'] ['a', 'b', 'a'] rfl).2 rfl
  refine ⟨?_, ?_⟩
  · rw [h.1]; rfl
  · rw [h.2.1]; rfl

end OpenCowork
